import Mathlib

/-!
Verification development for the skinner weight-transfer core
(`skinner/core.py`, `skinner/utils.py`).

The Python source is shallowly embedded over exact rationals:
* 3D points and normals are triples of rationals (`Pt3`);
* fallible code paths (Python exceptions: `IndexError`, `ZeroDivisionError`,
  failed `assert`, `ValueError`) are modelled with `Option`, `none` meaning
  "the call raises before returning a value";
* `np.linalg.norm` produces real distances; every function that consumes
  distances is therefore parameterised by the point-distance function `dist`,
  mirroring the source's own injection of `closestPointFunc`.  Theorems
  quantify over an arbitrary non-negative `dist`; concrete witnesses use
  `distL1`, which coincides with the Euclidean norm on the axis-aligned
  concrete inputs used below.
-/

/-- A 3D point or normal: the rational shadow of a `float64[3]`. -/
abbrev Pt3 : Type := ℚ × ℚ × ℚ

/-- Dot product of two 3-vectors: `om2.MVector.__mul__` (used as the
normal-comparison dot product in both resampling policies). -/
def dot3 (a b : Pt3) : ℚ := a.1 * b.1 + a.2.1 * b.2.1 + a.2.2 * b.2.2

/-- Concrete distance function used for witnesses and counterexamples.
On points that differ in at most one coordinate (every concrete input in this
file) it agrees exactly with `np.linalg.norm(p - q)`, the Euclidean norm used
by the source. -/
def distL1 (p q : Pt3) : ℚ := |p.1 - q.1| + |p.2.1 - q.2.1| + |p.2.2 - q.2.2|

theorem distL1_nonneg (p q : Pt3) : 0 ≤ distL1 p q := by
  have h1 : 0 ≤ |p.1 - q.1| := abs_nonneg _
  have h2 : 0 ≤ |p.2.1 - q.2.1| := abs_nonneg _
  have h3 : 0 ≤ |p.2.2 - q.2.2| := abs_nonneg _
  unfold distL1
  linarith

/-- Insert a `(distance, index)` pair into an already-sorted list, ordering by
distance and breaking ties by index, exactly the order `sorted` produces on the
`[dist, j]` sublists built by `closestPointBruteForce` (all indices are
distinct, so the lexicographic order is total and the sort is unique). -/
def insertSorted (x : ℚ × ℕ) : List (ℚ × ℕ) → List (ℚ × ℕ)
  | [] => [x]
  | y :: ys =>
    if x.1 < y.1 ∨ (x.1 = y.1 ∧ x.2 ≤ y.2) then x :: y :: ys
    else y :: insertSorted x ys

/-- Model of Python `sorted` on the `[dist, index]` pair lists. -/
def sortPairs : List (ℚ × ℕ) → List (ℚ × ℕ)
  | [] => []
  | x :: xs => insertSorted x (sortPairs xs)

theorem insertSorted_length (x : ℚ × ℕ) (l : List (ℚ × ℕ)) :
    (insertSorted x l).length = l.length + 1 := by
  induction l with
  | nil => rfl
  | cons y ys ih =>
    unfold insertSorted
    split
    · simp
    · simp [ih]

theorem mem_insertSorted {x y : ℚ × ℕ} {l : List (ℚ × ℕ)} :
    y ∈ insertSorted x l ↔ y = x ∨ y ∈ l := by
  induction l with
  | nil => simp [insertSorted]
  | cons z zs ih =>
    unfold insertSorted
    split
    · simp [or_comm, or_assoc, or_left_comm]
    · simp [ih]
      tauto

theorem sortPairs_length (l : List (ℚ × ℕ)) : (sortPairs l).length = l.length := by
  induction l with
  | nil => rfl
  | cons x xs ih => simp [sortPairs, insertSorted_length, ih]

theorem mem_sortPairs {x : ℚ × ℕ} {l : List (ℚ × ℕ)} : x ∈ sortPairs l ↔ x ∈ l := by
  induction l with
  | nil => simp [sortPairs]
  | cons y ys ih => simp [sortPairs, mem_insertSorted, ih]

/-- The list `[(dist(p, t_j), j), ...]` built by the brute-force query before
sorting, with `j` counting from `start`. -/
def distIdxPairsFrom (dist : Pt3 → Pt3 → ℚ) (p : Pt3) : List Pt3 → ℕ → List (ℚ × ℕ)
  | [], _ => []
  | t :: ts, j => (dist p t, j) :: distIdxPairsFrom dist p ts (j + 1)

theorem distIdxPairsFrom_length (dist : Pt3 → Pt3 → ℚ) (p : Pt3) (ts : List Pt3) (j : ℕ) :
    (distIdxPairsFrom dist p ts j).length = ts.length := by
  induction ts generalizing j with
  | nil => rfl
  | cons t ts ih => simp [distIdxPairsFrom, ih]

theorem mem_distIdxPairsFrom {dist : Pt3 → Pt3 → ℚ} {p : Pt3} {ts : List Pt3} {j : ℕ}
    {x : ℚ × ℕ} (hx : x ∈ distIdxPairsFrom dist p ts j) :
    (∃ t ∈ ts, x.1 = dist p t) ∧ x.2 < j + ts.length := by
  induction ts generalizing j with
  | nil => simp [distIdxPairsFrom] at hx
  | cons t ts ih =>
    simp only [distIdxPairsFrom, List.mem_cons] at hx
    rcases hx with rfl | hx
    · refine ⟨⟨t, by simp, rfl⟩, ?_⟩
      simp only [List.length_cons]
      omega
    · obtain ⟨⟨u, hu, hd⟩, hj⟩ := ih hx
      refine ⟨⟨u, by simp [hu], hd⟩, ?_⟩
      simp only [List.length_cons]
      omega

/-- Ascending `(distance, index)` pairs of all indexed points for one query
point: the sorted `distIndices` list of `closestPointBruteForce`. -/
def sortedDistIdx (dist : Pt3 → Pt3 → ℚ) (p : Pt3) (targets : List Pt3) : List (ℚ × ℕ) :=
  sortPairs (distIdxPairsFrom dist p targets 0)

theorem sortedDistIdx_length (dist : Pt3 → Pt3 → ℚ) (p : Pt3) (targets : List Pt3) :
    (sortedDistIdx dist p targets).length = targets.length := by
  simp [sortedDistIdx, sortPairs_length, distIdxPairsFrom_length]

theorem mem_sortedDistIdx {dist : Pt3 → Pt3 → ℚ} {p : Pt3} {targets : List Pt3}
    {x : ℚ × ℕ} (hx : x ∈ sortedDistIdx dist p targets) :
    (∃ t ∈ targets, x.1 = dist p t) ∧ x.2 < targets.length := by
  have := mem_distIdxPairsFrom (mem_sortPairs.mp hx)
  simpa using this

/-- Embedding of `skinner.core.closestPointBruteForce` (core.py:281-328): for
each query point, sort all `(distance, index)` pairs ascending and keep the
first `numNeighbors` of each row (after clamping `numNeighbors` to the number
of indexed points).  `trim` in the source re-applies the same clamp, so the
result is exactly the `take` below.  The source never raises here. -/
def closestPointBruteForce (dist : Pt3 → Pt3 → ℚ) (points targets : List Pt3)
    (numNeighbors : ℕ) : List (List ℚ) × List (List ℕ) :=
  let k := if targets.length < numNeighbors then targets.length else numNeighbors
  let rows := points.map (fun p => (sortedDistIdx dist p targets).take k)
  (rows.map (fun r => r.map Prod.fst), rows.map (fun r => r.map Prod.snd))

/-- Embedding of `skinner.core.closestPointKdTree` (core.py:229-279).  The
scipy `KDTree(targets).query(points, k)` call is third-party: it is modelled by
its documented contract (rows of the `k` nearest indexed points in ascending
distance order; a flat array of scalars — not rows — when `k == 1`; raises when
the tree data is empty or `k < 1`).  The source clamps `k` to the number of
indexed points and, for `k == 1`, wraps each flat scalar into a singleton list
(`[[item] for item in ...]`) to restore the uniform `[n][k]` shape. -/
def closestPointKdTree (dist : Pt3 → Pt3 → ℚ) (points targets : List Pt3)
    (numNeighbors : ℕ) : Option (List (List ℚ) × List (List ℕ)) :=
  if targets.length = 0 then none
  else
    let k := if targets.length < numNeighbors then targets.length else numNeighbors
    if k = 0 then none
    else if k = 1 then
      let flat := points.map (fun p => (sortedDistIdx dist p targets).headI)
      some (flat.map (fun di => [di.1]), flat.map (fun di => [di.2]))
    else
      let rows := points.map (fun p => (sortedDistIdx dist p targets).take k)
      some (rows.map (fun r => r.map Prod.fst), rows.map (fun r => r.map Prod.snd))

/-- First occurrence of the minimum, Python `min(list)` (`none` only for the
empty list, where Python raises `ValueError`). -/
def pyListMin : List ℚ → Option ℚ
  | [] => none
  | x :: xs =>
    match pyListMin xs with
    | none => some x
    | some m => some (min x m)

/-- Python `max(list)`. -/
def pyListMax : List ℚ → Option ℚ
  | [] => none
  | x :: xs =>
    match pyListMax xs with
    | none => some x
    | some m => some (max x m)

/-- Embedding of `skinner.utils.normalizeToOne` (utils.py:210-237).  Over ℚ the
division is exact, so the floating-point residual repair branch
(`normSum != 1.0`) is unreachable; it is still embedded verbatim.  `none`
models the zero-sum division failure (`ZeroDivisionError` for Python floats,
NaN propagation for numpy scalars — either way no normalized list is
produced). -/
def normalizeToOne (vals : List ℚ) : Option (List ℚ) :=
  if vals.sum = 1 then some vals
  else if vals.sum = 0 then none
  else
    let normed := vals.map (fun v => v / vals.sum)
    if normed.sum = 1 then some normed
    else
      (pyListMin normed).bind fun minVal =>
        let minIndex := normed.indexOf minVal
        let normBuffer := normed.eraseIdx minIndex
        let newMinVal := 1 - normBuffer.sum
        if 0 ≤ newMinVal then some (normed.set minIndex newMinVal)
        else
          let normed2 := normed.set minIndex 0
          (pyListMax normed2).bind fun maxVal =>
            let maxIndex := normed2.indexOf maxVal
            some (normed2.set maxIndex (normed2.getD maxIndex 0 + newMinVal))

theorem sum_map_div (l : List ℚ) (c : ℚ) : (l.map (fun x => x / c)).sum = l.sum / c := by
  induction l with
  | nil => simp
  | cons x xs ih => simp [ih, add_div]

/-- Behaviour of `normalizeToOne` on every input with nonzero sum: it returns,
the output sums to exactly 1, has the input's length, and is the input itself
whenever the input already sums to 1. -/
theorem normalizeToOne_spec {vals : List ℚ} (h : vals.sum ≠ 0) :
    ∃ u, normalizeToOne vals = some u ∧ u.sum = 1 ∧ u.length = vals.length ∧
      (vals.sum = 1 → u = vals) := by
  by_cases h1 : vals.sum = 1
  · exact ⟨vals, by simp [normalizeToOne, h1], h1, rfl, fun _ => rfl⟩
  · refine ⟨vals.map (fun v => v / vals.sum), ?_, ?_, by simp, fun hc => absurd hc h1⟩
    · have hs : (vals.map (fun v => v / vals.sum)).sum = 1 := by
        rw [sum_map_div, div_self h]
      simp only [normalizeToOne, if_neg h1, if_neg h]
      simp [hs]
    · rw [sum_map_div, div_self h]

/-- Column-wise sum `np.sum(rows, axis=0)` of a list of equal-length rows. -/
def npSumAxis0 : List (List ℚ) → List ℚ
  | [] => []
  | [r] => r
  | r :: rest => List.zipWith (· + ·) r (npSumAxis0 rest)

theorem npSumAxis0_length {rows : List (List ℚ)} {m : ℕ} (hne : rows ≠ [])
    (hm : ∀ r ∈ rows, r.length = m) : (npSumAxis0 rows).length = m := by
  induction rows with
  | nil => exact absurd rfl hne
  | cons r rest ih =>
    cases rest with
    | nil => simpa using hm r (by simp)
    | cons r2 rest2 =>
      have hr : r.length = m := hm r (by simp)
      have htail : (npSumAxis0 (r2 :: rest2)).length = m :=
        ih (by simp) (fun x hx => hm x (by simp [hx]))
      show (List.zipWith (· + ·) r (npSumAxis0 (r2 :: rest2))).length = m
      simp [List.length_zipWith, hr, htail]

theorem sum_zipWith_add {a b : List ℚ} (h : a.length = b.length) :
    (List.zipWith (· + ·) a b).sum = a.sum + b.sum := by
  induction a generalizing b with
  | nil => cases b with
    | nil => simp
    | cons y ys => simp at h
  | cons x xs ih =>
    cases b with
    | nil => simp at h
    | cons y ys =>
      simp only [List.length_cons, Nat.add_right_cancel_iff] at h
      simp [List.zipWith, ih h]
      ring

theorem sum_map_mul_right' (l : List ℚ) (c : ℚ) :
    (l.map (fun x => x * c)).sum = l.sum * c := by
  induction l with
  | nil => simp
  | cons x xs ih => simp [ih, add_mul]

/-- The `for weightListIndex,weight in enumerate(...)` loops of
`closestNeighborsWeights` (core.py:557-559 and 571-573): scale each pool row by
`normalizedDistances[weightListIndex]`.  `none` models the `IndexError` raised
when the distance list is shorter than the row list; surplus distances are
ignored, as in the source. -/
def enumMulScale : List (List ℚ) → List ℚ → Option (List (List ℚ))
  | [], _ => some []
  | w :: ws, nd =>
    match nd with
    | [] => none
    | d :: ds =>
      (enumMulScale ws ds).bind fun rest => some ((w.map (fun x => x * d)) :: rest)

theorem enumMulScale_eq_zipWith {pw : List (List ℚ)} {nd : List ℚ}
    (h : pw.length ≤ nd.length) :
    enumMulScale pw nd = some (List.zipWith (fun w d => w.map (fun x => x * d)) pw nd) := by
  induction pw generalizing nd with
  | nil => simp [enumMulScale]
  | cons w ws ih =>
    cases nd with
    | nil => simp at h
    | cons d ds =>
      simp only [List.length_cons, Nat.add_le_add_iff_right] at h
      simp [enumMulScale, ih h]

theorem mem_zipWith_scale {pw : List (List ℚ)} {nd : List ℚ} {r : List ℚ}
    (hr : r ∈ List.zipWith (fun w d => w.map (fun x => x * d)) pw nd) :
    ∃ w ∈ pw, ∃ d, r = w.map (fun x => x * d) := by
  induction pw generalizing nd with
  | nil => simp at hr
  | cons w ws ih =>
    cases nd with
    | nil => simp at hr
    | cons d ds =>
      simp only [List.zipWith, List.mem_cons] at hr
      rcases hr with rfl | hr
      · exact ⟨w, by simp, d, rfl⟩
      · obtain ⟨u, hu, e, he⟩ := ih hr
        exact ⟨u, by simp [hu], e, he⟩

/-- Sum of the column-wise sum of the proximity-scaled pool rows: when every
pool row sums to 1 and the rows have a common length, the total collapses to
the sum of the scaling coefficients. -/
theorem npSumAxis0_scaled_sum {m : ℕ} :
    ∀ (pw : List (List ℚ)) (nd : List ℚ), pw.length = nd.length →
      (∀ r ∈ pw, r.sum = 1) → (∀ r ∈ pw, r.length = m) →
      (npSumAxis0 (List.zipWith (fun w d => w.map (fun x => x * d)) pw nd)).sum = nd.sum := by
  intro pw
  induction pw with
  | nil =>
    intro nd h _ _
    cases nd with
    | nil => simp [npSumAxis0]
    | cons d ds => simp at h
  | cons w ws ih =>
    intro nd h hsum hlen
    cases nd with
    | nil => simp at h
    | cons d ds =>
      simp only [List.length_cons, Nat.add_right_cancel_iff] at h
      cases ws with
      | nil =>
        cases ds with
        | nil =>
          show (npSumAxis0 [w.map (fun x => x * d)]).sum = List.sum [d]
          simp [npSumAxis0, sum_map_mul_right', hsum w (by simp)]
        | cons e es => simp at h
      | cons w2 ws2 =>
        cases ds with
        | nil => simp at h
        | cons d2 ds2 =>
          have htailmem : ∀ r ∈ List.zipWith (fun w d => w.map (fun x => x * d))
              (w2 :: ws2) (d2 :: ds2), r.length = m := by
            intro r hr
            obtain ⟨u, hu, e, he⟩ := mem_zipWith_scale hr
            simp [he, hlen u (by simp [hu])]
          have htailne : List.zipWith (fun w d => w.map (fun x => x * d))
              (w2 :: ws2) (d2 :: ds2) ≠ [] := by simp
          have hlentail : (npSumAxis0 (List.zipWith (fun w d => w.map (fun x => x * d))
              (w2 :: ws2) (d2 :: ds2))).length = m := npSumAxis0_length htailne htailmem
          have hIH := ih (d2 :: ds2) h (fun r hr => hsum r (by simp [hr]))
            (fun r hr => hlen r (by simp [hr]))
          show (npSumAxis0 ((w.map (fun x => x * d)) ::
            List.zipWith (fun w d => w.map (fun x => x * d)) (w2 :: ws2) (d2 :: ds2))).sum
              = List.sum (d :: d2 :: ds2)
          have hstep : npSumAxis0 ((w.map (fun x => x * d)) ::
              List.zipWith (fun w d => w.map (fun x => x * d)) (w2 :: ws2) (d2 :: ds2))
                = List.zipWith (· + ·) (w.map (fun x => x * d))
                  (npSumAxis0 (List.zipWith (fun w d => w.map (fun x => x * d))
                    (w2 :: ws2) (d2 :: ds2))) := by
            simp [npSumAxis0]
          rw [hstep, sum_zipWith_add (by rw [List.length_map, hlentail, hlen w (by simp)]),
            hIH, sum_map_mul_right', hsum w (by simp)]
          simp

theorem sum_pos_of_mem {l : List ℚ} {d : ℚ} (hnn : ∀ x ∈ l, 0 ≤ x) (hd : d ∈ l)
    (hpos : 0 < d) : 0 < l.sum := by
  induction l with
  | nil => simp at hd
  | cons x xs ih =>
    rcases List.mem_cons.mp hd with rfl | hd2
    · have : 0 ≤ xs.sum := List.sum_nonneg (fun y hy => hnn y (by simp [hy]))
      simp only [List.sum_cons]
      linarith
    · have hx : 0 ≤ x := hnn x (by simp)
      have : 0 < xs.sum := ih (fun y hy => hnn y (by simp [hy])) hd2
      simp only [List.sum_cons]
      linarith

theorem sum_replicate_inv {n : ℕ} (hn : n ≠ 0) :
    (List.replicate n ((1 : ℚ) / n)).sum = 1 := by
  have hn' : (n : ℚ) ≠ 0 := Nat.cast_ne_zero.mpr hn
  rw [List.sum_replicate, nsmul_eq_mul, mul_one_div, div_self hn']

theorem zipWith_replicate_right {α β γ : Type} (f : α → β → γ) :
    ∀ (l : List α) (n : ℕ) (c : β), l.length ≤ n →
      List.zipWith f l (List.replicate n c) = l.map (fun a => f a c) := by
  intro l
  induction l with
  | nil => intro n c _; simp
  | cons a as ih =>
    intro n c h
    cases n with
    | zero => simp at h
    | succ n =>
      simp only [List.length_cons, Nat.add_le_add_iff_right] at h
      simp [List.replicate, ih n c h]

theorem zipWith_add_map_mul (c : ℚ) :
    ∀ (a b : List ℚ),
      List.zipWith (· + ·) (a.map (fun x => x * c)) (b.map (fun x => x * c))
        = (List.zipWith (· + ·) a b).map (fun x => x * c) := by
  intro a
  induction a with
  | nil => intro b; simp
  | cons x xs ih =>
    intro b
    cases b with
    | nil => simp
    | cons y ys => simp [List.zipWith, ih ys, add_mul]

theorem npSumAxis0_map_scale (c : ℚ) :
    ∀ pw : List (List ℚ),
      npSumAxis0 (pw.map (fun w => w.map (fun x => x * c)))
        = (npSumAxis0 pw).map (fun x => x * c) := by
  intro pw
  induction pw with
  | nil => simp [npSumAxis0]
  | cons w ws ih =>
    cases ws with
    | nil => simp [npSumAxis0]
    | cons w2 ws2 =>
      show npSumAxis0 ((w.map (fun x => x * c)) :: (w2 :: ws2).map (fun w => w.map (fun x => x * c)))
        = (List.zipWith (· + ·) w (npSumAxis0 (w2 :: ws2))).map (fun x => x * c)
      have h1 : npSumAxis0 ((w.map (fun x => x * c)) ::
          (w2 :: ws2).map (fun w => w.map (fun x => x * c)))
            = List.zipWith (· + ·) (w.map (fun x => x * c))
              (npSumAxis0 ((w2 :: ws2).map (fun w => w.map (fun x => x * c)))) := by
        simp [npSumAxis0]
      rw [h1, ih, zipWith_add_map_mul]

/-- The pool-blend kernel of `closestNeighborsWeights` (core.py:537-565): the
`else` branch run for every accepted pool that is not a single point.  Inputs
are the pool rows (`closesetIndexWeights`) and the pool distances
(`closestDistances`); outputs are the renormalized blended weight row and the
raw column-wise sum (the vector the buggy blend-weight branch appends).
`none` models the `ZeroDivisionError` on an empty pool and the zero-sum
failure of `normalizeToOne`. -/
def poolBlend (poolWeights : List (List ℚ)) (closestDistances : List ℚ) :
    Option (List ℚ × List ℚ) :=
  (if closestDistances.all (fun d => decide (d = 0)) then
     (if closestDistances.length = 0 then none
      else some (List.replicate closestDistances.length
        ((1 : ℚ) / closestDistances.length)))
   else some closestDistances).bind fun dists =>
  (normalizeToOne dists).bind fun nd0 =>
  (enumMulScale poolWeights nd0.reverse).bind fun wbd =>
  (normalizeToOne (npSumAxis0 wbd)).bind fun nw =>
  some (nw, npSumAxis0 wbd)

/-- `poolBlend` succeeds on every well-formed pool: at least one member,
matching row/distance counts, non-negative distances, and rows of a common
length each summing to 1. -/
theorem poolBlend_some {pw : List (List ℚ)} {cd : List ℚ} {m : ℕ}
    (h1 : 0 < cd.length) (hpw : pw.length = cd.length)
    (hd : ∀ d ∈ cd, 0 ≤ d) (hsum : ∀ r ∈ pw, r.sum = 1)
    (hm : ∀ r ∈ pw, r.length = m) :
    ∃ nw sm, poolBlend pw cd = some (nw, sm) := by
  have hn0 : cd.length ≠ 0 := Nat.pos_iff_ne_zero.mp h1
  -- in both branches the chosen distance list sums to a nonzero value
  have hmain : ∀ dists : List ℚ, dists.sum ≠ 0 → dists.length = cd.length →
      ∃ nw sm,
        ((normalizeToOne dists).bind fun nd0 =>
         (enumMulScale pw nd0.reverse).bind fun wbd =>
         (normalizeToOne (npSumAxis0 wbd)).bind fun nw =>
         some (nw, npSumAxis0 wbd)) = some (nw, sm) := by
    intro dists hds hdl
    obtain ⟨nd0, hnd0, hnd0sum, hnd0len, _⟩ := normalizeToOne_spec hds
    have hlen2 : pw.length ≤ nd0.reverse.length := by
      rw [List.length_reverse, hnd0len, hdl, hpw]
    have hzsum : (npSumAxis0 (List.zipWith (fun w d => w.map (fun x => x * d))
        pw nd0.reverse)).sum = nd0.reverse.sum := by
      exact npSumAxis0_scaled_sum pw nd0.reverse
        (by rw [List.length_reverse, hnd0len, hdl, hpw]) hsum hm
    have hsum1 : (npSumAxis0 (List.zipWith (fun w d => w.map (fun x => x * d))
        pw nd0.reverse)).sum = 1 := by
      rw [hzsum, List.sum_reverse, hnd0sum]
    obtain ⟨nw, hnw, _, _, _⟩ := normalizeToOne_spec (by rw [hsum1]; norm_num :
      (npSumAxis0 (List.zipWith (fun w d => w.map (fun x => x * d)) pw nd0.reverse)).sum ≠ 0)
    refine ⟨nw, npSumAxis0 (List.zipWith (fun w d => w.map (fun x => x * d)) pw nd0.reverse), ?_⟩
    simp only [hnd0, enumMulScale_eq_zipWith hlen2, hnw, Option.some_bind]
  by_cases hall : cd.all (fun d => decide (d = 0)) = true
  · have hsum1 : (List.replicate cd.length ((1 : ℚ) / cd.length)).sum = 1 :=
      sum_replicate_inv hn0
    obtain ⟨nw, sm, hmain2⟩ := hmain (List.replicate cd.length ((1 : ℚ) / cd.length))
      (by rw [hsum1]; norm_num) (by simp)
    refine ⟨nw, sm, ?_⟩
    simpa [poolBlend, hall, hn0] using hmain2
  · have hex : ∃ d ∈ cd, d ≠ 0 := by
      by_contra hno
      push_neg at hno
      exact hall (List.all_eq_true.mpr (fun d hdm => by simp [hno d hdm]))
    obtain ⟨d, hdm, hdne⟩ := hex
    have hdpos : 0 < d := lt_of_le_of_ne (hd d hdm) (Ne.symm hdne)
    have hcdsum : cd.sum ≠ 0 := ne_of_gt (sum_pos_of_mem hd hdm hdpos)
    obtain ⟨nw, sm, hmain2⟩ := hmain cd hcdsum rfl
    refine ⟨nw, sm, ?_⟩
    simpa [poolBlend, hall] using hmain2

/-- The `closesetIndexWeights = [allSavedWeights[int(index)] for index in
closestIndices]` comprehension (core.py:537): `none` models the `IndexError`
on an out-of-range pool index. -/
def lookupRows (w : List (List ℚ)) : List ℕ → Option (List (List ℚ))
  | [] => some []
  | i :: is =>
    (w.get? i).bind fun r =>
    (lookupRows w is).bind fun rs => some (r :: rs)

theorem lookupRows_some {w : List (List ℚ)} {idxs : List ℕ}
    (h : ∀ i ∈ idxs, i < w.length) :
    ∃ rs, lookupRows w idxs = some rs ∧ rs.length = idxs.length ∧ ∀ r ∈ rs, r ∈ w := by
  induction idxs with
  | nil => exact ⟨[], rfl, rfl, by simp⟩
  | cons i is ih =>
    obtain ⟨rs, hrs, hlen, hmem⟩ := ih (fun j hj => h j (by simp [hj]))
    have hi : i < w.length := h i (by simp)
    have hr : w.get? i = some (w.get ⟨i, hi⟩) := List.get?_eq_get hi
    refine ⟨w.get ⟨i, hi⟩ :: rs, ?_, by simp [hlen], ?_⟩
    · simp only [lookupRows, hr, hrs, Option.some_bind]
    · intro x hx
      rcases List.mem_cons.mp hx with rfl | hx2
      · exact List.get_mem w i hi
      · exact hmem x hx2

/-- A blend-weight output entry.  The source appends a python float
(`allSavedBlendWeights[i]`, single-member pool) or a whole numpy vector (the
blend branch of the multi-member pool mistakenly iterates the pool's weight
*vectors*, so its `np.sum(..., axis=0)` is a vector) to the same python list:
the entry type is the sum of the two shapes. -/
abbrev BlendEntry : Type := ℚ ⊕ List ℚ

/-- Truth value of `isinstance(allSavedBlendWeights, type(np.array))`
(core.py:434 and core.py:641).  `np.array` is a builtin function, so
`type(np.array)` is `builtin_function_or_method`; no numpy array (and no
python list) is an instance of that type, so the check is `False` for every
blend-weight array a caller can pass (callers pass the ndarray returned by
`getAllBlendWeights`). -/
def isinstanceTypeNpArray (_ : List ℚ) : Bool := false

/-- The candidate scan of `closestNeighborsWeights` (core.py:485-505): walk the
ordered `(distance, index)` candidates, stopping once `closestNeighborCount`
candidates are accepted or (without normal filtering) the first candidate
beyond `searchDist` is met; with normal filtering, candidates whose normal dot
product falls below the tolerance go to the rejected list instead.  `nAcc`
carries `len(closestIndices)`.  `none` models the `IndexError` of
`savedVertNormals[checkIndex]`. -/
def scanPool (count : ℤ) (filt : Bool) (tol : ℚ) (impNrm : Pt3)
    (savedNrms : List Pt3) (searchDist : ℚ) :
    List (ℚ × ℕ) → ℕ → Option (List (ℚ × ℕ) × List (ℚ × ℕ))
  | [], _ => some ([], [])
  | (d, idx) :: rest, nAcc =>
    if count ≤ (nAcc : ℤ) then some ([], [])
    else if searchDist < d ∧ filt = false then some ([], [])
    else if filt then
      (savedNrms.get? idx).bind fun nr =>
        if dot3 impNrm nr < tol then
          (scanPool count filt tol impNrm savedNrms searchDist rest nAcc).map
            (fun ar => (ar.1, (d, idx) :: ar.2))
        else
          (scanPool count filt tol impNrm savedNrms searchDist rest (nAcc + 1)).map
            (fun ar => ((d, idx) :: ar.1, ar.2))
    else
      (scanPool count filt tol impNrm savedNrms searchDist rest (nAcc + 1)).map
        (fun ar => ((d, idx) :: ar.1, ar.2))

theorem scanPool_nofilt_some (count : ℤ) (tol : ℚ) (impNrm : Pt3)
    (savedNrms : List Pt3) (searchDist : ℚ) :
    ∀ (l : List (ℚ × ℕ)) (nAcc : ℕ),
      ∃ A, scanPool count false tol impNrm savedNrms searchDist l nAcc = some (A, [])
        ∧ ∀ x ∈ A, x ∈ l := by
  intro l
  induction l with
  | nil => intro nAcc; exact ⟨[], rfl, by simp⟩
  | cons x rest ih =>
    intro nAcc
    obtain ⟨d, idx⟩ := x
    by_cases h1 : count ≤ (nAcc : ℤ)
    · exact ⟨[], by simp [scanPool, h1], by simp⟩
    · by_cases h2 : searchDist < d
      · exact ⟨[], by simp [scanPool, h1, h2], by simp⟩
      · obtain ⟨A, hA, hmem⟩ := ih (nAcc + 1)
        refine ⟨(d, idx) :: A, ?_, ?_⟩
        · simp [scanPool, h1, h2, hA]
        · intro y hy
          rcases List.mem_cons.mp hy with rfl | hy2
          · simp
          · simp [hmem y hy2]

theorem scanPool_nofilt_cons (count : ℤ) (tol : ℚ) (impNrm : Pt3)
    (savedNrms : List Pt3) (searchDist : ℚ) {d : ℚ} {idx : ℕ} {rest : List (ℚ × ℕ)}
    (hc : 0 < count) (hd : ¬ searchDist < d) :
    ∃ A, scanPool count false tol impNrm savedNrms searchDist ((d, idx) :: rest) 0
        = some ((d, idx) :: A, []) ∧ ∀ x ∈ A, x ∈ rest := by
  obtain ⟨A, hA, hmem⟩ := scanPool_nofilt_some count tol impNrm savedNrms searchDist rest 1
  refine ⟨A, ?_, hmem⟩
  have h1 : ¬ count ≤ ((0 : ℕ) : ℤ) := by exact_mod_cast not_le.mpr hc
  simp [scanPool, h1, hd, hA, hc]

/-- The `closestIndices`/`closestDistances` pair of `closestNeighborsWeights`
after the scan (core.py:507-512): normally the accepted pool's indices and
distances; when normal filtering rejected everything, the first
`min(closestNeighborCount, len(rejected))` rejected entries — where the
source assigns the rejected *indices* to `closestDistances` as well
(`closestDistances = rejectedIndices[:maxIndex]`), embedded as the `Nat.cast`
below. -/
def cnwPool (count : ℤ) (filt : Bool) (ar : List (ℚ × ℕ) × List (ℚ × ℕ)) :
    List ℕ × List ℚ :=
  if ar.1 = [] ∧ filt then
    let maxIndex := min count.toNat ar.2.length
    ((ar.2.take maxIndex).map Prod.snd,
     ((ar.2.take maxIndex).map Prod.snd).map (fun i => (i : ℚ)))
  else (ar.1.map Prod.snd, ar.1.map Prod.fst)

/-- The tail of the per-point body of `closestNeighborsWeights`
(core.py:514-576): copy the single pool row directly, or look the pool rows
up and run the pool-blend kernel; under `useBW` also produce the blend entry
(a copied scalar for a single pool, the kernel's raw vector sum otherwise). -/
def cnwFinish (w : List (List ℚ)) (bw : List ℚ) (useBW : Bool)
    (indices : List ℕ) (cds : List ℚ) : Option (List ℚ × Option BlendEntry) :=
  match indices with
  | [single] =>
    (w.get? single).bind fun row =>
      if useBW then
        (bw.get? single).bind fun b => some (row, some (Sum.inl b))
      else some (row, none)
  | other =>
    (lookupRows w other).bind fun poolWeights =>
    (poolBlend poolWeights cds).bind fun nwsm =>
    some (nwsm.1, if useBW then some (Sum.inr nwsm.2) else none)

/-- Per-target-point body of the main loop of `closestNeighborsWeights`
(core.py:476-576): compute `searchDist` from the row's first distance
(`IndexError` on an empty row), scan the candidates, then finish on the
resulting pool. -/
def cnwPoint (w : List (List ℚ)) (bw : List ℚ) (useBW : Bool) (count : ℤ)
    (mult : ℚ) (filt : Bool) (tol : ℚ) (savedNrms : List Pt3)
    (dRow : List ℚ) (iRow : List ℕ) (impNrm : Pt3) :
    Option (List ℚ × Option BlendEntry) :=
  dRow.head?.bind fun d0 =>
  (scanPool count filt tol impNrm savedNrms (d0 * mult) (dRow.zip iRow) 0).bind fun ar =>
  cnwFinish w bw useBW (cnwPool count filt ar).1 (cnwPool count filt ar).2

/-- The `for i in range(len(importVertPositions))` loop of
`closestNeighborsWeights`, walking the per-point candidate rows (zipped with
the import normal, read only under normal filtering). -/
def cnwLoop (w : List (List ℚ)) (bw : List ℚ) (useBW : Bool) (count : ℤ)
    (mult : ℚ) (filt : Bool) (tol : ℚ) (savedNrms : List Pt3) :
    List ((List ℚ × List ℕ) × Pt3) → Option (List (List ℚ) × List BlendEntry)
  | [] => some ([], [])
  | (rowPair, nrm) :: rest =>
    (cnwPoint w bw useBW count mult filt tol savedNrms rowPair.1 rowPair.2 nrm).bind
      fun rb =>
    (cnwLoop w bw useBW count mult filt tol savedNrms rest).bind fun wsbs =>
    some (rb.1 :: wsbs.1,
      match rb.2 with
      | some b => b :: wsbs.2
      | none => wsbs.2)

/-- Return value of `closestNeighborsWeights`: the
`{"weights": ..., "blendWeights": ...}` dict. -/
structure CNWResult where
  weights : List (List ℚ)
  blendWeights : List BlendEntry
  deriving DecidableEq

/-- Embedding of `skinner.core.closestNeighborsWeights` (core.py:333-576).
The source's injected `closestPointFunc` defaults to `closestPointKdTree`;
both in-repo query implementations satisfy the same output contract, and the
embedding instantiates the query with `closestPointBruteForce dist` (the
repository's dependency-free implementation), keeping the distance function
injected.  The first two guards are the source's upfront normals `assert` and
`raise`; the blend-weight length `assert` sits behind
`isinstanceTypeNpArray`. -/
def closestNeighborsWeights (dist : Pt3 → Pt3 → ℚ)
    (allSavedWeights : List (List ℚ)) (allSavedBlendWeights : List ℚ)
    (importVertPositions savedVertPositions : List Pt3)
    (importVertNormals savedVertNormals : List Pt3)
    (closestNeighborCount : ℤ) (closestNeighborDistMult : ℚ)
    (filterByVertNormal : Bool) (vertNormalTolerance : ℚ) : Option CNWResult :=
  if importVertNormals ≠ [] ∧ importVertNormals.length ≠ importVertPositions.length
    then none
  else if filterByVertNormal ∧ importVertNormals = [] then none
  else
    let useBW := isinstanceTypeNpArray allSavedBlendWeights
    if useBW ∧ allSavedWeights.length ≠ allSavedBlendWeights.length then none
    else
      let count2 : ℤ :=
        if closestNeighborCount < 1 then (importVertPositions.length : ℤ)
        else closestNeighborCount
      let countOv : ℤ :=
        if filterByVertNormal then (importVertNormals.length : ℤ) else count2
      let pr := closestPointBruteForce dist importVertPositions savedVertPositions
        countOv.toNat
      let nrms :=
        if filterByVertNormal then importVertNormals
        else List.replicate importVertPositions.length ((0 : ℚ), (0 : ℚ), (0 : ℚ))
      (cnwLoop allSavedWeights allSavedBlendWeights useBW count2
          closestNeighborDistMult filterByVertNormal vertNormalTolerance
          savedVertNormals ((pr.1.zip pr.2).zip nrms)).bind fun wsbs =>
      some ⟨wsbs.1, wsbs.2⟩

/-- Python truthiness of the `closestNormalMatch` variable of
`closestPointWeights` (an `Optional[int]`): `if closestNormalMatch:` is false
both for `None` and for the integer index `0`. -/
def pyTruthyOptNat : Option ℕ → Bool
  | none => false
  | some m => decide (m ≠ 0)

/-- The normal-filter scan of `closestPointWeights` (core.py:676-685): walk
the ordered candidates and return the first index whose saved normal's dot
product with the import normal reaches the tolerance.  The outer `none`
models the `IndexError` of `savedVertNormals[checkIndex]`; `some none` means
no candidate passed. -/
def cpwScan (savedNrms : List Pt3) (impNrm : Pt3) (tol : ℚ) :
    List (ℚ × ℕ) → Option (Option ℕ)
  | [] => some none
  | (_, idx) :: rest =>
    (savedNrms.get? idx).bind fun nr =>
      if tol ≤ dot3 impNrm nr then some (some idx)
      else cpwScan savedNrms impNrm tol rest

/-- Per-target-point body of the loop of `closestPointWeights`
(core.py:671-695): `closestIndex` starts as the unfiltered nearest index and
is replaced by the scan's result only when that result is truthy — the
source's `if closestNormalMatch:` keeps the unfiltered index both when the
scan found nothing and when it found index `0`. -/
def cpwPoint (w : List (List ℚ)) (bw : List ℚ) (useBW filt : Bool) (tol : ℚ)
    (savedNrms : List Pt3) (dRow : List ℚ) (iRow : List ℕ) (impNrm : Pt3) :
    Option (List ℚ × Option ℚ) :=
  iRow.head?.bind fun ci0 =>
  (if filt then cpwScan savedNrms impNrm tol (dRow.zip iRow) else some none).bind
    fun closestNormalMatch =>
  (w.get? (if pyTruthyOptNat closestNormalMatch then closestNormalMatch.getD ci0
           else ci0)).bind fun row =>
  if useBW then
    (bw.get? (if pyTruthyOptNat closestNormalMatch then closestNormalMatch.getD ci0
              else ci0)).bind fun b => some (row, some b)
  else some (row, none)

/-- The `for i in range(len(importVertPositions))` loop of
`closestPointWeights`. -/
def cpwLoop (w : List (List ℚ)) (bw : List ℚ) (useBW filt : Bool) (tol : ℚ)
    (savedNrms : List Pt3) :
    List ((List ℚ × List ℕ) × Pt3) → Option (List (List ℚ) × List ℚ)
  | [] => some ([], [])
  | (rowPair, nrm) :: rest =>
    (cpwPoint w bw useBW filt tol savedNrms rowPair.1 rowPair.2 nrm).bind fun rb =>
    (cpwLoop w bw useBW filt tol savedNrms rest).bind fun wsbs =>
    some (rb.1 :: wsbs.1,
      match rb.2 with
      | some b => b :: wsbs.2
      | none => wsbs.2)

/-- Return value of `closestPointWeights`. -/
structure CPWResult where
  weights : List (List ℚ)
  blendWeights : List ℚ
  deriving DecidableEq

/-- Embedding of `skinner.core.closestPointWeights` (core.py:580-697), with
the same conventions as `closestNeighborsWeights`: the injected closest-point
query is instantiated with `closestPointBruteForce dist`, the upfront guards
are the source's normals `assert`/`raise`, and the blend-weight length
`assert` sits behind `isinstanceTypeNpArray`.  With normal filtering the
query asks for `len(importVertPositions)` neighbors (the source uses
the import count here, not the saved count). -/
def closestPointWeights (dist : Pt3 → Pt3 → ℚ)
    (allSavedWeights : List (List ℚ)) (allSavedBlendWeights : List ℚ)
    (importVertPositions savedVertPositions : List Pt3)
    (importVertNormals savedVertNormals : List Pt3)
    (filterByVertNormal : Bool) (vertNormalTolerance : ℚ) : Option CPWResult :=
  if importVertNormals ≠ [] ∧ importVertNormals.length ≠ importVertPositions.length
    then none
  else if filterByVertNormal ∧ importVertNormals = [] then none
  else
    let useBW := isinstanceTypeNpArray allSavedBlendWeights
    if useBW ∧ allSavedWeights.length ≠ allSavedBlendWeights.length then none
    else
      let numNeighbors : ℕ :=
        if filterByVertNormal then importVertPositions.length else 1
      let pr := closestPointBruteForce dist importVertPositions savedVertPositions
        numNeighbors
      let nrms :=
        if filterByVertNormal then importVertNormals
        else List.replicate importVertPositions.length ((0 : ℚ), (0 : ℚ), (0 : ℚ))
      (cpwLoop allSavedWeights allSavedBlendWeights useBW filterByVertNormal
          vertNormalTolerance savedVertNormals ((pr.1.zip pr.2).zip nrms)).bind
        fun wsbs => some ⟨wsbs.1, wsbs.2⟩

/-- One row of `skinner.utils.transposeWeights` (utils.py:597-605): for each
skinCluster influence, copy the skinChunk column of the same name, or fill 0
for an influence the skinChunk lacks.  `none` models the `IndexError` of
`chunkWeights[chunkIndex]` on a row shorter than the skinChunk name list. -/
def transposeRow (chunkWeights : List ℚ) (skinChunkInfNames : List String) :
    List String → Option (List ℚ)
  | [] => some []
  | inf :: rest =>
    (if inf ∈ skinChunkInfNames
     then chunkWeights.get? (skinChunkInfNames.indexOf inf)
     else some 0).bind fun c =>
    (transposeRow chunkWeights skinChunkInfNames rest).bind fun cs =>
    some (c :: cs)

/-- The row loop of `transposeWeights`. -/
def transposeRows (skinChunkInfNames skinClusterInfNames : List String) :
    List (List ℚ) → Option (List (List ℚ))
  | [] => some []
  | r :: rest =>
    (transposeRow r skinChunkInfNames skinClusterInfNames).bind fun tr =>
    (transposeRows skinChunkInfNames skinClusterInfNames rest).bind fun trs =>
    some (tr :: trs)

/-- Embedding of `skinner.utils.transposeWeights` (utils.py:574-606).  The
three leading guards are, in source order: the `skinChunkWeights[0]` access
(`IndexError` on an empty row list), the first-row length `assert`, and the
missing-influence `assert`.  The third source `assert` compares
`skinChunkInfNames` against itself and can never fire; it is embedded
verbatim. -/
def transposeWeights (skinChunkWeights : List (List ℚ))
    (skinChunkInfNames skinClusterInfNames : List String) :
    Option (List (List ℚ)) :=
  skinChunkWeights.head?.bind fun firstRow =>
    if firstRow.length = skinChunkInfNames.length then
      if skinChunkInfNames.filter (fun n => decide (n ∉ skinClusterInfNames)) = [] then
        if skinChunkInfNames.filter (fun n => decide (n ∉ skinChunkInfNames)) = [] then
          transposeRows skinChunkInfNames skinClusterInfNames skinChunkWeights
        else none
      else none
    else none

/-- The sampled vert ids of `skinner.utils.getVertNeighborSamples`
(utils.py:878-898): `step = int(totalMeshVerts/neighborSamples)` (float
division truncated, i.e. floor for the non-negative operands here), replaced
by `totalMeshVerts - 1` when zero, then `range(0, totalMeshVerts, step)`.
`none` models `ZeroDivisionError` for `neighborSamples == 0` and the
`ValueError` of a zero `range` step (a one-vert mesh with
`neighborSamples > 1`).  The per-index adjacent-vert lookup
(`getConnectedVertIDs`, host Maya API) is orthogonal to the sampled id set
and not modelled. -/
def getVertNeighborSampleIndices (totalMeshVerts neighborSamples : ℕ) :
    Option (List ℕ) :=
  if neighborSamples = 0 then none
  else
    let step : ℤ :=
      if totalMeshVerts / neighborSamples = 0 then (totalMeshVerts : ℤ) - 1
      else (totalMeshVerts / neighborSamples : ℕ)
    if step = 0 then none
    else if step < 0 then some []
    else some (List.range' 0 ((totalMeshVerts + step.toNat - 1) / step.toNat) step.toNat)

theorem cnwFinish_blend_none {w : List (List ℚ)} {bw : List ℚ} {indices : List ℕ}
    {cds : List ℚ} {rb : List ℚ × Option BlendEntry}
    (h : cnwFinish w bw false indices cds = some rb) : rb.2 = none := by
  unfold cnwFinish at h
  split at h
  · simp only [Bool.false_eq_true, if_false, Option.bind_eq_some,
      Option.some.injEq] at h
    obtain ⟨row, _, hr⟩ := h
    rw [← hr]
  · simp only [Bool.false_eq_true, if_false, Option.bind_eq_some,
      Option.some.injEq] at h
    obtain ⟨pw2, _, nwsm, _, hr⟩ := h
    rw [← hr]

theorem cnwPoint_blend_none {w : List (List ℚ)} {bw : List ℚ} {count : ℤ} {mult : ℚ}
    {filt : Bool} {tol : ℚ} {savedNrms : List Pt3} {dRow : List ℚ} {iRow : List ℕ}
    {impNrm : Pt3} {rb : List ℚ × Option BlendEntry}
    (h : cnwPoint w bw false count mult filt tol savedNrms dRow iRow impNrm = some rb) :
    rb.2 = none := by
  unfold cnwPoint at h
  rcases Option.bind_eq_some.mp h with ⟨d0, _, h2⟩
  rcases Option.bind_eq_some.mp h2 with ⟨ar, _, h3⟩
  exact cnwFinish_blend_none h3

theorem cnwLoop_blend_nil {w : List (List ℚ)} {bw : List ℚ} {count : ℤ} {mult : ℚ}
    {filt : Bool} {tol : ℚ} {savedNrms : List Pt3} :
    ∀ {rows : List ((List ℚ × List ℕ) × Pt3)} {out : List (List ℚ) × List BlendEntry},
      cnwLoop w bw false count mult filt tol savedNrms rows = some out → out.2 = [] := by
  intro rows
  induction rows with
  | nil =>
    intro out h
    simp only [cnwLoop, Option.some.injEq] at h
    rw [← h]
  | cons x rest ih =>
    intro out h
    obtain ⟨rowPair, nrm⟩ := x
    unfold cnwLoop at h
    rcases Option.bind_eq_some.mp h with ⟨rb, hrb, h2⟩
    rcases Option.bind_eq_some.mp h2 with ⟨wsbs, hws, h3⟩
    have hb := cnwPoint_blend_none hrb
    have hbs := ih hws
    rw [hb] at h3
    simp only [Option.some.injEq] at h3
    rw [← h3]
    exact hbs

/-- Claim C1: the claim states that when a non-empty blend-weight array of the
weight array's length is supplied, `closestNeighborsWeights` returns one
blend-weight entry per target point, each the proximity-weighted sum of the
pool's blend-weight scalars.  The code cannot do this: its guard
`isinstance(allSavedBlendWeights, type(np.array))` is false for every array
(`type(np.array)` is `builtin_function_or_method`), so `useBlendWeights` stays
`False` and the returned `blendWeights` list is empty on every call — and the
unreachable pool branch would iterate the pool's weight *vectors*, not the
blend scalars.  This theorem proves the divergence: every successful call
returns an empty `blendWeights` list, whatever blend array was supplied. -/
theorem closestNeighborsWeights_blend_always_empty
    (dist : Pt3 → Pt3 → ℚ) (w : List (List ℚ)) (bw : List ℚ)
    (imp saved inrm snrm : List Pt3) (count : ℤ) (mult : ℚ) (filt : Bool) (tol : ℚ)
    (out : CNWResult)
    (h : closestNeighborsWeights dist w bw imp saved inrm snrm count mult filt tol
      = some out) :
    out.blendWeights = [] := by
  simp only [closestNeighborsWeights, isinstanceTypeNpArray, Bool.false_eq_true,
    false_and, if_false] at h
  split at h
  · cases h
  · split at h
    · cases h
    · rcases Option.bind_eq_some.mp h with ⟨wsbs, hws, h2⟩
      cases h2
      exact cnwLoop_blend_nil hws

/-- Witness for C1: a call with a blend-weight array of matching length (two
blend scalars for two saved weight rows) still returns an empty
`blendWeights` list. -/
theorem closestNeighborsWeights_blend_always_empty_witness :
    closestNeighborsWeights distL1 [[1, 0], [0, 1]] [5, 7] [(1, 0, 0)]
        [(0, 0, 0), (3, 0, 0)] [] [] 2 1 false 0
      = some ⟨[[1, 0]], []⟩
    ∧ (⟨[[1, 0]], []⟩ : CNWResult).blendWeights = [] :=
  ⟨by with_unfolding_all rfl,
   closestNeighborsWeights_blend_always_empty distL1 [[1, 0], [0, 1]] [5, 7]
     [(1, 0, 0)] [(0, 0, 0), (3, 0, 0)] [] [] 2 1 false 0 ⟨[[1, 0]], []⟩
     (by with_unfolding_all rfl)⟩

theorem zip_map_fst_snd {α β : Type} :
    ∀ l : List (α × β), (l.map Prod.fst).zip (l.map Prod.snd) = l := by
  intro l
  induction l with
  | nil => rfl
  | cons x xs ih => simp [List.zip, ih]

theorem cnwPoint_nofilt_some {w : List (List ℚ)} (bw : List ℚ) {count : ℤ} {mult : ℚ}
    (tol : ℚ) (savedNrms : List Pt3) {m : ℕ} {sorted : List (ℚ × ℕ)} (impNrm : Pt3)
    (hc : 0 < count) (hmult : 1 ≤ mult) (hne : sorted ≠ [])
    (hdist : ∀ x ∈ sorted, 0 ≤ x.1)
    (hidx : ∀ x ∈ sorted, x.2 < w.length)
    (hsum : ∀ r ∈ w, r.sum = 1) (hlen : ∀ r ∈ w, r.length = m) :
    ∃ rb, cnwPoint w bw false count mult false tol savedNrms
      (sorted.map Prod.fst) (sorted.map Prod.snd) impNrm = some rb := by
  obtain ⟨⟨d0, i0⟩, stail, rfl⟩ : ∃ hd tl, sorted = hd :: tl := by
    cases sorted with
    | nil => exact absurd rfl hne
    | cons hd tl => exact ⟨hd, tl, rfl⟩
  have hd0 : 0 ≤ d0 := hdist (d0, i0) (by simp)
  have hnotlt : ¬ d0 * mult < d0 := not_lt.mpr (le_mul_of_one_le_right hd0 hmult)
  obtain ⟨A, hscan, hmemA⟩ :=
    scanPool_nofilt_cons count tol impNrm savedNrms (d0 * mult) hc hnotlt
  have hzip : ((((d0, i0) :: stail).map Prod.fst)).zip
      (((d0, i0) :: stail).map Prod.snd) = (d0, i0) :: stail := zip_map_fst_snd _
  have hmemA2 : ∀ x ∈ A, x ∈ (d0, i0) :: stail := by
    intro x hx
    exact List.mem_cons_of_mem _ (hmemA x hx)
  simp only [cnwPoint, List.map_cons, List.head?_cons, Option.some_bind]
  rw [show ((d0 :: stail.map Prod.fst).zip (i0 :: stail.map Prod.snd))
      = (d0, i0) :: stail from hzip, hscan]
  simp only [Option.some_bind, cnwPool, List.cons_ne_nil, false_and, if_false,
    List.map_cons]
  cases A with
  | nil =>
    have hi0 : i0 < w.length := hidx (d0, i0) (by simp)
    refine ⟨(w.get ⟨i0, hi0⟩, none), ?_⟩
    simp [cnwFinish, List.getElem?_eq_getElem hi0]
  | cons a A2 =>
    have hidx2 : ∀ j ∈ i0 :: (a :: A2).map Prod.snd, j < w.length := by
      intro j hj
      rcases List.mem_cons.mp hj with rfl | hj2
      · exact hidx (d0, j) (by simp)
      · obtain ⟨x, hx, rfl⟩ := List.mem_map.mp hj2
        exact hidx x (hmemA2 x hx)
    obtain ⟨rs, hrs, hrslen, hrsmem⟩ := lookupRows_some hidx2
    have hpb : ∃ nw sm, poolBlend rs (d0 :: (a :: A2).map Prod.fst) = some (nw, sm) := by
      refine poolBlend_some (m := m) (by simp) ?_ ?_
        (fun r hr => hsum r (hrsmem r hr)) (fun r hr => hlen r (hrsmem r hr))
      · rw [hrslen]; simp
      · intro d hd
        rcases List.mem_cons.mp hd with rfl | hd2
        · exact hd0
        · obtain ⟨x, hx, rfl⟩ := List.mem_map.mp hd2
          exact hdist x (hmemA2 x hx)
    obtain ⟨nw, sm, hpb2⟩ := hpb
    simp only [List.map_cons] at hrs hpb2
    refine ⟨(nw, none), ?_⟩
    simp [cnwFinish, hrs, hpb2]

theorem zip_map_pair {α β γ : Type} (f : α → β) (g : α → γ) :
    ∀ l : List α, (l.map f).zip (l.map g) = l.map (fun x => (f x, g x)) := by
  intro l
  induction l with
  | nil => rfl
  | cons x xs ih => simp [List.zip, ih]

theorem mem_zip_map_replicate {α β γ : Type} (h : α → β) (v : γ) :
    ∀ (l : List α) (x : β × γ), x ∈ (l.map h).zip (List.replicate l.length v) →
      ∃ p ∈ l, x = (h p, v) := by
  intro l
  induction l with
  | nil =>
    intro x hx
    simp at hx
  | cons a as ih =>
    intro x hx
    simp only [List.map_cons, List.length_cons, List.replicate_succ,
      List.zip_cons_cons, List.mem_cons] at hx
    rcases hx with rfl | hx2
    · exact ⟨a, by simp, rfl⟩
    · obtain ⟨p, hp, rfl⟩ := ih x hx2
      exact ⟨p, by simp [hp], rfl⟩

theorem cnwLoop_length_some {w : List (List ℚ)} {bw : List ℚ} {useBW : Bool}
    {count : ℤ} {mult : ℚ} {filt : Bool} {tol : ℚ} {savedNrms : List Pt3} :
    ∀ {rows : List ((List ℚ × List ℕ) × Pt3)},
      (∀ x ∈ rows, ∃ rb, cnwPoint w bw useBW count mult filt tol savedNrms
        x.1.1 x.1.2 x.2 = some rb) →
      ∃ out, cnwLoop w bw useBW count mult filt tol savedNrms rows = some out
        ∧ out.1.length = rows.length := by
  intro rows
  induction rows with
  | nil =>
    intro _
    exact ⟨([], []), rfl, rfl⟩
  | cons x rest ih =>
    intro hx
    obtain ⟨rb, hrb⟩ := hx x (by simp)
    obtain ⟨out2, hout2, hlen2⟩ := ih (fun y hy => hx y (by simp [hy]))
    obtain ⟨rowPair, nrm⟩ := x
    refine ⟨(rb.1 :: out2.1,
      match rb.2 with
      | some b => b :: out2.2
      | none => out2.2), ?_, by simp [hlen2]⟩
    simp only [cnwLoop, hrb, hout2, Option.some_bind]

/-- Claim C2 (amended): for every target point set, every non-empty source
point set with a well-formed weight matrix (one row per source point, rows of
a common length each summing to 1), any `closestNeighborCount` and any
`closestNeighborDistMult` that is at least 1, `closestNeighborsWeights`
returns without raising and its weights list has exactly one row per target
point.  The original claim's "any positive closestNeighborDistMult" fails:
for a multiplier below 1 the first candidate already lies outside
`searchDist = d0 * mult`, the accepted pool is empty, and
`avg = 1.0/len(closestDistances)` raises `ZeroDivisionError` (see the
counterexample). -/
theorem closestNeighborsWeights_total_amended
    (dist : Pt3 → Pt3 → ℚ) (w : List (List ℚ)) (bw : List ℚ)
    (imp saved snrm : List Pt3) (count : ℤ) (mult tol : ℚ) (m : ℕ)
    (hd : ∀ p q, 0 ≤ dist p q) (hs : saved ≠ [])
    (hw : w.length = saved.length)
    (hsum : ∀ r ∈ w, r.sum = 1) (hlen : ∀ r ∈ w, r.length = m)
    (hmult : 1 ≤ mult) :
    ∃ out, closestNeighborsWeights dist w bw imp saved [] snrm count mult false tol
        = some out ∧ out.weights.length = imp.length := by
  have h1 : ¬(([] : List Pt3) ≠ [] ∧ ([] : List Pt3).length ≠ imp.length) := by simp
  have h2 : ¬((false : Bool) = true ∧ ([] : List Pt3) = []) := by simp
  have h3 : ¬(isinstanceTypeNpArray bw = true ∧ w.length ≠ bw.length) := by
    simp [isinstanceTypeNpArray]
  have hcount2 : (0 : ℤ) < (if count < 1 then (imp.length : ℤ) else count) ∨ imp = [] := by
    by_cases hi : imp = []
    · exact Or.inr hi
    · refine Or.inl ?_
      split
      · have : 0 < imp.length := List.length_pos.mpr hi
        exact_mod_cast this
      · omega
  -- the clamped neighbor count is positive
  set count2 : ℤ := if count < 1 then (imp.length : ℤ) else count with hc2
  set k : ℕ := if saved.length < count2.toNat then saved.length else count2.toNat
    with hk
  have hrows :
      ∀ x ∈ ((closestPointBruteForce dist imp saved count2.toNat).1.zip
          (closestPointBruteForce dist imp saved count2.toNat).2).zip
          (List.replicate imp.length ((0 : ℚ), (0 : ℚ), (0 : ℚ))),
        ∃ rb, cnwPoint w bw (isinstanceTypeNpArray bw) count2 mult false tol snrm
          x.1.1 x.1.2 x.2 = some rb := by
    intro x hx
    have hzz : (closestPointBruteForce dist imp saved count2.toNat).1.zip
        (closestPointBruteForce dist imp saved count2.toNat).2
          = imp.map (fun p => (((sortedDistIdx dist p saved).take k).map Prod.fst,
              ((sortedDistIdx dist p saved).take k).map Prod.snd)) := by
      simp only [closestPointBruteForce]
      rw [zip_map_pair, List.map_map, hk]
      rfl
    rw [hzz] at hx
    obtain ⟨p, hp, rfl⟩ := mem_zip_map_replicate _ _ imp x hx
    have himp : imp ≠ [] := by
      intro hnil
      rw [hnil] at hp
      simp at hp
    have hcpos : 0 < count2 := hcount2.resolve_right himp
    have hkpos : 0 < k := by
      rw [hk]
      have h1 : 0 < saved.length := List.length_pos.mpr hs
      have h2 : 0 < count2.toNat := by omega
      split <;> omega
    have htake : ((sortedDistIdx dist p saved).take k) ≠ [] := by
      refine List.length_pos.mp ?_
      rw [List.length_take, sortedDistIdx_length]
      have : 0 < saved.length := List.length_pos.mpr hs
      omega
    refine cnwPoint_nofilt_some bw tol snrm _ hcpos hmult htake ?_ ?_ hsum hlen
    · intro y hy
      obtain ⟨⟨t, _, hdt⟩, _⟩ := mem_sortedDistIdx (List.mem_of_mem_take hy)
      rw [hdt]
      exact hd p t
    · intro y hy
      obtain ⟨_, hlt⟩ := mem_sortedDistIdx (List.mem_of_mem_take hy)
      rw [hw]
      exact hlt
  obtain ⟨out2, hloop, hlen2⟩ := cnwLoop_length_some hrows
  refine ⟨⟨out2.1, out2.2⟩, ?_, ?_⟩
  · simp only [closestNeighborsWeights, if_neg h1, if_neg h2, if_neg h3,
      Bool.false_eq_true, if_false, ← hc2]
    rw [hloop]
    rfl
  · rw [hlen2]
    simp [List.length_zip, List.length_replicate, closestPointBruteForce]

theorem closestNeighborsWeights_raises_on_small_mult :
    closestNeighborsWeights distL1 [[1]] [] [(1, 0, 0)] [(0, 0, 0)] [] [] 1 (1 / 2)
        false 0 = none ∧ (0 : ℚ) < 1 / 2 := by
  constructor
  · with_unfolding_all rfl
  · norm_num

theorem closestNeighborsWeights_total_amended_witness :
    ∃ out, closestNeighborsWeights distL1 [[1]] [] [(5, 0, 0)] [(0, 0, 0)] [] [] 3 2
        false 0 = some out
      ∧ out.weights.length = [((5 : ℚ), (0 : ℚ), (0 : ℚ))].length :=
  closestNeighborsWeights_total_amended distL1 [[1]] [] [(5, 0, 0)] [(0, 0, 0)] []
    3 2 0 1 distL1_nonneg (by simp) (by simp) (by simp) (by simp) (by norm_num)

theorem npSumAxis0_sum {m : ℕ} :
    ∀ {rows : List (List ℚ)}, (∀ r ∈ rows, r.length = m) →
      (npSumAxis0 rows).sum = (rows.map List.sum).sum := by
  intro rows
  induction rows with
  | nil => intro _; rfl
  | cons r rest ih =>
    intro hm
    cases rest with
    | nil => simp [npSumAxis0]
    | cons r2 rest2 =>
      have htail : (npSumAxis0 (r2 :: rest2)).length = m :=
        npSumAxis0_length (by simp) (fun x hx => hm x (by simp [hx]))
      have hstep : npSumAxis0 (r :: r2 :: rest2)
          = List.zipWith (· + ·) r (npSumAxis0 (r2 :: rest2)) := by
        simp [npSumAxis0]
      rw [hstep, sum_zipWith_add (by rw [hm r (by simp), htail]),
        ih (fun x hx => hm x (by simp [hx]))]
      simp

theorem sum_eq_length_of_all_one :
    ∀ l : List ℚ, (∀ x ∈ l, x = 1) → l.sum = l.length := by
  intro l
  induction l with
  | nil => intro _; simp
  | cons x xs ih =>
    intro h
    rw [List.sum_cons, h x (by simp), ih (fun y hy => h y (by simp [hy]))]
    simp
    ring

/-- Claim C7: in the closest-neighbors-blend policy, a pool of two or more
members whose distances are all exactly zero raises no exception, produces no
NaN (the computation is exact over ℚ and returns `some`), and yields the
unweighted average of the pool members' weight vectors: the all-zero guard
substitutes the uniform distribution `1/poolSize`, which survives
normalization and reversal unchanged, and the already-normalized average
passes the final `normalizeToOne` untouched.  Pool rows are well-formed
weight vectors of the data model: a common length and sum 1 each. -/
theorem poolBlend_coincident (pw : List (List ℚ)) (cd : List ℚ) (m : ℕ)
    (h2 : 2 ≤ cd.length) (hpw : pw.length = cd.length)
    (hz : ∀ d ∈ cd, d = 0)
    (hm : ∀ r ∈ pw, r.length = m) (hsum : ∀ r ∈ pw, r.sum = 1) :
    ∃ sm, poolBlend pw cd
      = some ((npSumAxis0 pw).map (fun x => x / (cd.length : ℚ)), sm) := by
  have hn : cd.length ≠ 0 := by omega
  have hall : cd.all (fun d => decide (d = 0)) = true :=
    List.all_eq_true.mpr (fun d hd => by simp [hz d hd])
  have hnorm1 : normalizeToOne (List.replicate cd.length ((1 : ℚ) / cd.length))
      = some (List.replicate cd.length ((1 : ℚ) / cd.length)) := by
    unfold normalizeToOne
    rw [sum_replicate_inv hn]
    simp
  have hrev : (List.replicate cd.length ((1 : ℚ) / cd.length)).reverse
      = List.replicate cd.length ((1 : ℚ) / cd.length) := List.reverse_replicate _ _
  have hems : enumMulScale pw (List.replicate cd.length ((1 : ℚ) / cd.length))
      = some (pw.map (fun w => w.map (fun x => x * ((1 : ℚ) / cd.length)))) := by
    rw [enumMulScale_eq_zipWith (by rw [hpw, List.length_replicate]),
      zipWith_replicate_right _ pw cd.length _ (le_of_eq hpw)]
  have hscale : npSumAxis0 (pw.map (fun w => w.map (fun x => x * ((1 : ℚ) / cd.length))))
      = (npSumAxis0 pw).map (fun x => x * ((1 : ℚ) / cd.length)) :=
    npSumAxis0_map_scale _ pw
  have htotsum : (npSumAxis0 pw).sum = (pw.length : ℚ) := by
    rw [npSumAxis0_sum (m := m) hm]
    have hones : ∀ x ∈ pw.map List.sum, x = 1 := by
      intro x hx
      obtain ⟨r, hr, rfl⟩ := List.mem_map.mp hx
      exact hsum r hr
    rw [sum_eq_length_of_all_one _ hones]
    simp
  have hsummed : ((npSumAxis0 pw).map (fun x => x * ((1 : ℚ) / cd.length))).sum = 1 := by
    rw [sum_map_mul_right', htotsum, hpw, mul_one_div, div_self (Nat.cast_ne_zero.mpr hn)]
  have hnorm2 : normalizeToOne ((npSumAxis0 pw).map (fun x => x * ((1 : ℚ) / cd.length)))
      = some ((npSumAxis0 pw).map (fun x => x * ((1 : ℚ) / cd.length))) := by
    unfold normalizeToOne
    rw [hsummed]
    simp
  refine ⟨(npSumAxis0 pw).map (fun x => x / (cd.length : ℚ)), ?_⟩
  have hdiv : (npSumAxis0 pw).map (fun x => x * ((1 : ℚ) / cd.length))
      = (npSumAxis0 pw).map (fun x => x / (cd.length : ℚ)) := by
    simp only [mul_one_div]
  unfold poolBlend
  rw [hall]
  simp only [if_true, if_neg hn, Option.some_bind, hnorm1, hrev, hems, hscale, hdiv]
  rw [← hdiv, hnorm2, hdiv]
  simp

/-- Witness for C7: two coincident pool members with weight rows `[1,0]` and
`[0,1]`; the blended row is their unweighted average `[1/2, 1/2]`. -/
theorem poolBlend_coincident_witness :
    ∃ sm, poolBlend [[1, 0], [0, 1]] [0, 0]
      = some ((npSumAxis0 [[1, 0], [0, 1]]).map
          (fun x => x / ((([0, 0] : List ℚ).length : ℕ) : ℚ)), sm) :=
  poolBlend_coincident [[1, 0], [0, 1]] [0, 0] 2 (by simp) (by simp)
    (by simp) (by simp) (by simp)

/-- Claim C8: with `k = 1`, both closest-point queries return one
single-element row per query point — never a flat array.  The brute-force
implementation clamps `k` and trims each sorted row to one entry; the
tree-based implementation wraps scipy's flat `k == 1` scalars back into
singleton rows. -/
theorem closestPoint_k1_shape (dist : Pt3 → Pt3 → ℚ) (points targets : List Pt3)
    (hp : points ≠ []) (ht : targets ≠ []) :
    ((closestPointBruteForce dist points targets 1).1.length = points.length
      ∧ (closestPointBruteForce dist points targets 1).2.length = points.length
      ∧ (∀ r ∈ (closestPointBruteForce dist points targets 1).1, r.length = 1)
      ∧ (∀ r ∈ (closestPointBruteForce dist points targets 1).2, r.length = 1))
    ∧ ∃ dk ik, closestPointKdTree dist points targets 1 = some (dk, ik)
        ∧ dk.length = points.length ∧ ik.length = points.length
        ∧ (∀ r ∈ dk, r.length = 1) ∧ (∀ r ∈ ik, r.length = 1) := by
  have htpos : 0 < targets.length := List.length_pos.mpr ht
  have hk : (if targets.length < 1 then targets.length else 1) = 1 := by
    rw [if_neg (by omega)]
  have hrowlen : ∀ p : Pt3, ((sortedDistIdx dist p targets).take 1).length = 1 := by
    intro p
    rw [List.length_take, sortedDistIdx_length]
    omega
  constructor
  · refine ⟨?_, ?_, ?_, ?_⟩
    · simp [closestPointBruteForce, hk]
    · simp [closestPointBruteForce, hk]
    · intro r hr
      simp only [closestPointBruteForce, hk, List.map_map, List.mem_map] at hr
      obtain ⟨p, _, rfl⟩ := hr
      show ((List.take 1 (sortedDistIdx dist p targets)).map Prod.fst).length = 1
      rw [List.length_map, hrowlen p]
    · intro r hr
      simp only [closestPointBruteForce, hk, List.map_map, List.mem_map] at hr
      obtain ⟨p, _, rfl⟩ := hr
      show ((List.take 1 (sortedDistIdx dist p targets)).map Prod.snd).length = 1
      rw [List.length_map, hrowlen p]
  · refine ⟨(points.map (fun p => (sortedDistIdx dist p targets).headI)).map
        (fun di => [di.1]),
      (points.map (fun p => (sortedDistIdx dist p targets).headI)).map
        (fun di => [di.2]), ?_, by simp, by simp, ?_, ?_⟩
    · simp only [closestPointKdTree, hk]
      simp [Nat.pos_iff_ne_zero.mp htpos]
    · intro r hr
      simp only [List.map_map, List.mem_map] at hr
      obtain ⟨p, _, rfl⟩ := hr
      rfl
    · intro r hr
      simp only [List.map_map, List.mem_map] at hr
      obtain ⟨p, _, rfl⟩ := hr
      rfl

/-- Witness for C8 at a concrete one-query-point, two-indexed-point input. -/
theorem closestPoint_k1_shape_witness :
    ((closestPointBruteForce distL1 [(0, 0, 0)] [(1, 0, 0), (2, 0, 0)] 1).1.length
        = [((0 : ℚ), (0 : ℚ), (0 : ℚ))].length
      ∧ (closestPointBruteForce distL1 [(0, 0, 0)] [(1, 0, 0), (2, 0, 0)] 1).2.length
        = [((0 : ℚ), (0 : ℚ), (0 : ℚ))].length
      ∧ (∀ r ∈ (closestPointBruteForce distL1 [(0, 0, 0)] [(1, 0, 0), (2, 0, 0)] 1).1,
          r.length = 1)
      ∧ (∀ r ∈ (closestPointBruteForce distL1 [(0, 0, 0)] [(1, 0, 0), (2, 0, 0)] 1).2,
          r.length = 1))
    ∧ ∃ dk ik, closestPointKdTree distL1 [(0, 0, 0)] [(1, 0, 0), (2, 0, 0)] 1
          = some (dk, ik)
        ∧ dk.length = [((0 : ℚ), (0 : ℚ), (0 : ℚ))].length
        ∧ ik.length = [((0 : ℚ), (0 : ℚ), (0 : ℚ))].length
        ∧ (∀ r ∈ dk, r.length = 1) ∧ (∀ r ∈ ik, r.length = 1) :=
  closestPoint_k1_shape distL1 [(0, 0, 0)] [(1, 0, 0), (2, 0, 0)] (by simp) (by simp)

/-- Counterexample to C3 as stated: a 10-point mesh sampled with
`sampleCount = 20`.  The claim's "minimum stride 1, every point sampled when
sampleCount ≥ totalPoints" predicts all ten indices; the code's zero-stride
fallback is `step = totalMeshVerts - 1 = 9`, so only indices 0 and 9 are
sampled (index 1 is not). -/
theorem getVertNeighborSamples_10_20 :
    getVertNeighborSampleIndices 10 20 = some [0, 9]
    ∧ (1 : ℕ) ∉ ([0, 9] : List ℕ) := by
  constructor
  · with_unfolding_all rfl
  · decide

/-- Claim C3 (amended): the sampling stride is `totalPoints / sampleCount`
(floor) when that is at least 1 — in particular, when
`sampleCount ≤ totalPoints < 2 * sampleCount` the stride is 1 and every point
index is sampled; but when the floor is 0 (`sampleCount > totalPoints`) the
fallback stride is `totalPoints - 1`, not 1, so a mesh of at least two points
samples exactly the indices `0` and `totalPoints - 1`. -/
theorem getVertNeighborSamples_stride (total samples : ℕ) (h1 : 1 ≤ samples) :
    (samples ≤ total → total < 2 * samples →
        getVertNeighborSampleIndices total samples = some (List.range total))
    ∧ (2 ≤ total → total < samples →
        getVertNeighborSampleIndices total samples = some [0, total - 1]) := by
  constructor
  · intro hle hlt
    have hstep : total / samples = 1 :=
      Nat.div_eq_of_lt_le (by omega) (by omega)
    simp only [getVertNeighborSampleIndices, hstep]
    rw [if_neg (by omega : ¬ samples = 0)]
    norm_num [List.range_eq_range']
  · intro h2 hlt
    have hstep : total / samples = 0 := Nat.div_eq_of_lt hlt
    have htn : ((total : ℤ) - 1).toNat = total - 1 := by omega
    simp only [getVertNeighborSampleIndices, hstep]
    rw [if_neg (by omega : ¬ samples = 0)]
    rw [if_pos trivial]
    rw [if_neg (by omega : ¬ (total : ℤ) - 1 = 0),
      if_neg (by omega : ¬ (total : ℤ) - 1 < 0), htn]
    have hcnt : (total + (total - 1) - 1) / (total - 1) = 2 := by
      have he : total + (total - 1) - 1 = 2 * (total - 1) := by omega
      rw [he, Nat.mul_div_cancel _ (by omega)]
    rw [hcnt]
    simp [List.range']

/-- Witness for C3 (amended): 10 points, 7 samples: stride
`10 / 7 = 1` and all ten indices are sampled. -/
theorem getVertNeighborSamples_stride_witness :
    1 ≤ 7
    ∧ getVertNeighborSampleIndices 10 7 = some (List.range 10) :=
  ⟨by omega, (getVertNeighborSamples_stride 10 7 (by omega)).1 (by omega) (by omega)⟩

/-- Counterexample to C6 as stated: `[0.0]` is non-empty with non-negative
entries, but its sum is zero, so `normalizeToOne` divides by zero and raises
(`none` — `ZeroDivisionError` for python floats, NaN propagation for numpy
scalars); no output whose sum is within 1e-9 of 1 is produced. -/
theorem normalizeToOne_zero_vector :
    normalizeToOne [0] = none
    ∧ ([(0 : ℚ)] ≠ [] ∧ ∀ x ∈ [(0 : ℚ)], 0 ≤ x) := by
  refine ⟨by with_unfolding_all rfl, by simp, ?_⟩
  intro x hx
  rw [List.mem_singleton] at hx
  rw [hx]

/-- Claim C6 (amended): for every non-empty vector with non-negative entries
and positive sum, `normalizeToOne` returns a list whose sum is within 1e-9 of
1 (over ℚ it is exactly 1), and an input already summing to 1 is returned
unchanged.  The original claim omitted the positive-sum precondition and
fails on the all-zero vector (see the counterexample), exactly the edge case
the spec tells callers to pre-detect. -/
theorem normalizeToOne_sums_to_one (v : List ℚ) (hne : v ≠ [])
    (hnn : ∀ x ∈ v, 0 ≤ x) (hpos : 0 < v.sum) :
    ∃ u, normalizeToOne v = some u ∧ |u.sum - 1| ≤ 1 / 1000000000
      ∧ (v.sum = 1 → u = v) := by
  obtain ⟨u, hu, hsum, _, hid⟩ := normalizeToOne_spec (ne_of_gt hpos)
  refine ⟨u, hu, ?_, hid⟩
  rw [hsum]
  norm_num

/-- Witness for C6 (amended): `[1/2, 1/4]` sums to 3/4; the normalized output
sums exactly to 1. -/
theorem normalizeToOne_sums_to_one_witness :
    ∃ u, normalizeToOne [1 / 2, 1 / 4] = some u ∧ |u.sum - 1| ≤ 1 / 1000000000
      ∧ (([1 / 2, 1 / 4] : List ℚ).sum = 1 → u = [1 / 2, 1 / 4]) :=
  normalizeToOne_sums_to_one [1 / 2, 1 / 4] (by simp) (by norm_num)
    (by norm_num [List.sum_cons])

/-- Claim C9: whenever some skinChunk influence name is absent from the
skinCluster influence list, `transposeWeights` raises before producing any
output: the empty-weights `IndexError`, the first-row length `assert`, or the
missing-influence `assert` fires on every such call. -/
theorem transposeWeights_missing_label_fails (w : List (List ℚ))
    (s t : List String) (h : ∃ name ∈ s, name ∉ t) :
    transposeWeights w s t = none := by
  obtain ⟨name, hmem, hnot⟩ := h
  have hfil : s.filter (fun n => decide (n ∉ t)) ≠ [] := by
    apply List.ne_nil_of_mem (a := name)
    rw [List.mem_filter]
    exact ⟨hmem, by simp [hnot]⟩
  unfold transposeWeights
  cases hw : w.head? with
  | none => rfl
  | some firstRow =>
    simp only [Option.some_bind]
    rcases Classical.em (firstRow.length = s.length) with hfr | hfr
    · rw [if_pos hfr, if_neg hfil]
    · rw [if_neg hfr]

/-- Witness for C9: source label Z is absent from the target labels, and the
call fails. -/
theorem transposeWeights_missing_label_fails_witness :
    transposeWeights [[1, 0]] ["A", "Z"] ["A", "B"] = none :=
  transposeWeights_missing_label_fails [[1, 0]] ["A", "Z"] ["A", "B"]
    ⟨"Z", by decide, by decide⟩

theorem get?_eq_getD_of_lt (row : List ℚ) (i : ℕ) (h : i < row.length) :
    row.get? i = some (row.getD i 0) := by
  rw [List.getD_eq_getElem?_getD, List.get?_eq_getElem?, List.getElem?_eq_getElem h]
  rfl

theorem map_getD_indexOf :
    ∀ (s : List String) (row : List ℚ), s.Nodup → row.length = s.length →
      s.map (fun l => row.getD (s.indexOf l) 0) = row := by
  intro s
  induction s with
  | nil =>
    intro row _ hlen
    have hr : row = [] := List.length_eq_zero.mp (by rw [hlen]; rfl)
    subst hr
    rfl
  | cons a s2 ih =>
    intro row hnd hlen
    obtain ⟨x, row2, rfl⟩ : ∃ x row2, row = x :: row2 := by
      cases row with
      | nil => simp at hlen
      | cons x row2 => exact ⟨x, row2, rfl⟩
    have hlen2 : row2.length = s2.length := by
      simp only [List.length_cons, Nat.add_right_cancel_iff] at hlen
      exact hlen
    have hnotmem : a ∉ s2 := (List.nodup_cons.mp hnd).1
    have hnd2 : s2.Nodup := (List.nodup_cons.mp hnd).2
    simp only [List.map_cons, List.indexOf_cons_self, List.getD_cons_zero]
    congr 1
    have hmaps : s2.map (fun l => (x :: row2).getD ((a :: s2).indexOf l) 0)
        = s2.map (fun l => row2.getD (s2.indexOf l) 0) := by
      apply List.map_congr_left
      intro l hl
      have hne : l ≠ a := fun he => hnotmem (he ▸ hl)
      rw [List.indexOf_cons_ne _ (Ne.symm hne), Nat.succ_eq_add_one, List.getD_cons_succ]
    rw [hmaps, ih row2 hnd2 hlen2]

theorem sum_map_ite_mem (g : String → ℚ) (s : List String) :
    ∀ t : List String,
      (t.map (fun l => if l ∈ s then g l else 0)).sum
        = ((t.filter (fun l => decide (l ∈ s))).map g).sum := by
  intro t
  induction t with
  | nil => rfl
  | cons a t2 ih =>
    by_cases ha : a ∈ s
    · simp only [List.map_cons, List.sum_cons, if_pos ha, List.filter_cons,
        decide_eq_true_eq, ha, if_true, ih]
    · simp only [List.map_cons, List.sum_cons, if_neg ha, List.filter_cons,
        decide_eq_true_eq, ha, if_false, ih]
      simp

theorem filter_mem_perm (s t : List String) (hs : s.Nodup) (ht : t.Nodup)
    (hsub : ∀ x ∈ s, x ∈ t) :
    (t.filter (fun l => decide (l ∈ s))).Perm s := by
  apply List.perm_iff_count.mpr
  intro a
  by_cases ha : a ∈ s
  · rw [List.count_filter (by simp [ha]), List.count_eq_one_of_mem ht (hsub a ha),
      List.count_eq_one_of_mem hs ha]
  · have h1 : List.count a (t.filter (fun l => decide (l ∈ s))) = 0 := by
      refine List.count_eq_zero.mpr (fun hmem => ha ?_)
      have := (List.mem_filter.mp hmem).2
      simpa using this
    have h2 : List.count a s = 0 := List.count_eq_zero.mpr ha
    rw [h1, h2]

theorem transposeRow_eq (row : List ℚ) (s : List String)
    (hlen : row.length = s.length) :
    ∀ t : List String,
      transposeRow row s t
        = some (t.map (fun l => if l ∈ s then row.getD (s.indexOf l) 0 else 0)) := by
  intro t
  induction t with
  | nil => rfl
  | cons inf rest ih =>
    by_cases hm : inf ∈ s
    · have hidx : s.indexOf inf < row.length := by
        rw [hlen]
        exact List.indexOf_lt_length.mpr hm
      simp only [transposeRow, if_pos hm, get?_eq_getD_of_lt row _ hidx,
        Option.some_bind, ih, List.map_cons]
    · simp only [transposeRow, if_neg hm, Option.some_bind, ih, List.map_cons]

theorem transposeRows_eq (s t : List String) (F : List ℚ → List ℚ) :
    ∀ w : List (List ℚ), (∀ r ∈ w, transposeRow r s t = some (F r)) →
      transposeRows s t w = some (w.map F) := by
  intro w
  induction w with
  | nil => intro _; rfl
  | cons r w2 ih =>
    intro h
    simp only [transposeRows, h r (by simp), Option.some_bind,
      ih (fun x hx => h x (by simp [hx])), List.map_cons]

theorem mem_zip_map_self {α β : Type} (F : α → β) :
    ∀ (l : List α) (x : β × α), x ∈ (l.map F).zip l → ∃ r ∈ l, x = (F r, r) := by
  intro l
  induction l with
  | nil =>
    intro x hx
    simp at hx
  | cons a as ih =>
    intro x hx
    simp only [List.map_cons, List.zip_cons_cons, List.mem_cons] at hx
    rcases hx with rfl | hx2
    · exact ⟨a, by simp, rfl⟩
    · obtain ⟨r, hr, rfl⟩ := ih x hx2
      exact ⟨r, by simp [hr], rfl⟩

/-- Counterexample to C10 as stated: `transposeWeights [[1],[3,4]] ["A"] ["A"]`
satisfies the checked precondition (the one source label is in the target
list, both lists duplicate-free, and the first row matches the source count),
but the second row is longer than the source label list; its surplus column
is silently dropped and the row's mass shrinks from 7 to 3. -/
theorem transposeWeights_ragged_row :
    transposeWeights [[1], [3, 4]] ["A"] ["A"] = some [[1], [3]]
    ∧ ([(3 : ℚ), 4].sum ≠ [(3 : ℚ)].sum) := by
  constructor
  · with_unfolding_all rfl
  · norm_num

/-- Claim C10 (amended): for every input satisfying the checked precondition
(every source label in the target list, labels duplicate-free, a non-empty
row list) in which additionally every row — not only the first — has the
source label count's length, `transposeWeights` returns one output row per
input row, each of the target label count's length and with exactly the
input row's sum: reordering preserves total mass. -/
theorem transposeWeights_preserves_mass (w : List (List ℚ)) (s t : List String)
    (hw : w ≠ []) (hs : s.Nodup) (ht : t.Nodup) (hsub : ∀ n ∈ s, n ∈ t)
    (hrow : ∀ r ∈ w, r.length = s.length) :
    ∃ out, transposeWeights w s t = some out ∧ out.length = w.length
      ∧ ∀ pr ∈ out.zip w, pr.1.length = t.length ∧ pr.1.sum = pr.2.sum := by
  obtain ⟨r0, w2, rfl⟩ : ∃ r0 w2, w = r0 :: w2 := by
    cases w with
    | nil => exact absurd rfl hw
    | cons r0 w2 => exact ⟨r0, w2, rfl⟩
  have hmiss1 : (r0 :: w2).head?.bind (fun firstRow => some firstRow)
      = some r0 := rfl
  have hfil1 : s.filter (fun n => decide (n ∉ t)) = [] :=
    List.filter_eq_nil.mpr (fun n hn => by simp [hsub n hn])
  have hfil2 : s.filter (fun n => decide (n ∉ s)) = [] :=
    List.filter_eq_nil.mpr (fun n hn => by simp [hn])
  have hrows : transposeRows s t (r0 :: w2)
      = some ((r0 :: w2).map (fun r =>
          t.map (fun l => if l ∈ s then r.getD (s.indexOf l) 0 else 0))) :=
    transposeRows_eq s t _ _ (fun r hr => transposeRow_eq r s (hrow r hr) t)
  refine ⟨(r0 :: w2).map (fun r =>
      t.map (fun l => if l ∈ s then r.getD (s.indexOf l) 0 else 0)), ?_, by simp, ?_⟩
  · unfold transposeWeights
    simp only [List.head?_cons, Option.some_bind]
    rw [if_pos (hrow r0 (by simp)), if_pos hfil1, if_pos hfil2, hrows]
  · intro pr hpr
    obtain ⟨r, hr, rfl⟩ := mem_zip_map_self _ _ pr hpr
    refine ⟨by simp, ?_⟩
    show (t.map (fun l => if l ∈ s then r.getD (s.indexOf l) 0 else 0)).sum = r.sum
    rw [sum_map_ite_mem (fun l => r.getD (s.indexOf l) 0) s t]
    rw [List.Perm.sum_eq (List.Perm.map _ (filter_mem_perm s t hs ht hsub))]
    rw [map_getD_indexOf s r hs (hrow r hr)]

/-- Witness for C10 (amended): one row `[3, 7]` over source labels A, B
reordered to target labels B, A, C keeps its mass 10. -/
theorem transposeWeights_preserves_mass_witness :
    ∃ out, transposeWeights [[3, 7]] ["A", "B"] ["B", "A", "C"] = some out
      ∧ out.length = ([[(3 : ℚ), 7]] : List (List ℚ)).length
      ∧ ∀ pr ∈ out.zip [[(3 : ℚ), 7]],
          pr.1.length = (["B", "A", "C"] : List String).length
          ∧ pr.1.sum = pr.2.sum :=
  transposeWeights_preserves_mass [[3, 7]] ["A", "B"] ["B", "A", "C"]
    (by simp) (by decide) (by decide) (by decide) (by decide)

/-- Claim C4 / code bug: with normal filtering on, the first target point's
ordered candidates are index 1 (distance 1, dot −1, fails the ½ tolerance)
then index 0 (distance 2, dot 1, passes).  The claim — and the source's own
fallback comment — require the first passing candidate's row `weights[0] =
[1, 0]`; but `if closestNormalMatch:` treats the matched index 0 as falsy, so
the code keeps the unfiltered nearest index 1 and returns `weights[1] =
[0, 1]`.  The second target point, whose passing candidate is also its
unfiltered nearest, agrees with the claim by coincidence.  On these
axis-aligned points `distL1` equals the Euclidean norm. -/
theorem closestPointWeights_normal_filter_index0_bug :
    closestPointWeights distL1 [[1, 0], [0, 1]] [] [(0, 0, 0), (100, 0, 0)]
        [(2, 0, 0), (1, 0, 0)] [(0, 0, 1), (0, 0, 1)] [(0, 0, 1), (0, 0, -1)]
        true (1 / 2)
      = some ⟨[[0, 1], [1, 0]], []⟩
    ∧ ([(0 : ℚ), 1] : List ℚ) ≠ [1, 0] := by
  constructor
  · with_unfolding_all rfl
  · norm_num

/-- Claim C5 / code bug: a blend-weight array of length 3 beside only two
weight rows must, per the claim, make both policies fail upfront; instead
both return normally, because the length `assert` is guarded by
`isinstance(allSavedBlendWeights, type(np.array))`, which is false for every
array.  The third conjunct records the length mismatch; the last conjunct
shows the other upfront validation (normal filtering requested with no
normals) does fail as claimed. -/
theorem resamplers_accept_mismatched_blend_length :
    closestNeighborsWeights distL1 [[1, 0], [0, 1]] [1, 2, 3] [(1, 0, 0)]
        [(0, 0, 0), (3, 0, 0)] [] [] 2 1 false 0
      = some ⟨[[1, 0]], []⟩
    ∧ closestPointWeights distL1 [[1, 0], [0, 1]] [1, 2, 3] [(1, 0, 0)]
        [(0, 0, 0), (3, 0, 0)] [] [] false 0
      = some ⟨[[1, 0]], []⟩
    ∧ ([(1 : ℚ), 2, 3] : List ℚ).length ≠ ([[1, 0], [0, 1]] : List (List ℚ)).length
    ∧ closestNeighborsWeights distL1 [[1, 0], [0, 1]] [] [(1, 0, 0)]
        [(0, 0, 0), (3, 0, 0)] [] [] 2 1 true 0
      = none := by
  refine ⟨by with_unfolding_all rfl, by with_unfolding_all rfl, by decide,
    by with_unfolding_all rfl⟩
